import Mathlib

/-!
Shallow embedding of `src/midi_postprocessing.py`.

Times are modelled as rationals (the Python floats carry the exact values on
the inputs of interest), pitches as integers.  Notes are the three-element
lists `[start, end, pitch]` the script builds.  The process-wide randomness
used by `random.choice` (always over a two-element list here) is modelled by
an explicit boolean choice: `true` picks the first of the two candidates,
`false` the second; the pipeline threads a stream `coin : Nat → Bool`, one
flip per time-group.  Failures (the `assert` on the logic type, and any
out-of-range list indexing) are modelled by `Option`.
-/

namespace MidiPost

/-- A note record `[start, end, pitch]` as built by `midi_postprocessing`
(src/midi_postprocessing.py line 153). -/
structure Note where
  start : ℚ
  endt : ℚ
  pitch : ℤ
  deriving DecidableEq, Repr

/-- Python `int()` applied to a rational: truncation toward zero. -/
def pyInt (x : ℚ) : ℤ := if x < 0 then ⌈x⌉ else ⌊x⌋

/-- Python list indexing `l[i]`, with negative indices counting from the
end; out-of-range indexing is an error (`none`). -/
def pyIndex (l : List Note) (i : ℤ) : Option Note :=
  if 0 ≤ i then l[i.toNat]?
  else if (-i).toNat ≤ l.length then l[l.length - (-i).toNat]? else none

/-- Embedding of `select_note_from_group` (src/midi_postprocessing.py
lines 16-60).  `none` models the failed `assert` on an invalid `logic_type`
(and any indexing fault).  The boolean `c` stands for the `random.choice`
between the two central candidate indices; Python's float expressions
`len(group)/2`, `middle % 2 == 0`, `int(...)` are mirrored exactly over ℚ. -/
def select_note_from_group (group : List Note) (logic_type : ℤ) (c : Bool) :
    Option Note :=
  if ¬ (0 ≤ logic_type ∧ logic_type ≤ 2) then none
  else
    let selected_idx : ℤ :=
      if logic_type = 0 then 0
      else if logic_type = 1 then
        let middle : ℚ := (group.length : ℚ) / 2
        if middle - 2 * (⌊middle / 2⌋ : ℚ) = 0 ∨ group.length = 2 then
          if c then pyInt middle else pyInt (middle - 1)
        else
          pyInt (middle - 1/2)
      else if logic_type = 2 then (group.length : ℤ) - 1
      else -1
    pyIndex group selected_idx

/-- Embedding of `fit_to_pitch_range` (src/midi_postprocessing.py
lines 62-96): a single octave-quantized transposition toward the range,
with `math.ceil` mirrored by `Int.ceil` over ℚ. -/
def fit_to_pitch_range (note : Note) (range_min range_max : ℤ) : Note :=
  if range_max < note.pitch then
    ⟨note.start, note.endt, note.pitch - 12 * ⌈((note.pitch - range_max : ℤ) : ℚ) / 12⌉⟩
  else if note.pitch < range_min then
    ⟨note.start, note.endt, note.pitch + 12 * ⌈((range_min - note.pitch : ℤ) : ℚ) / 12⌉⟩
  else note

/-- Time scaling applied while reading the input
(src/midi_postprocessing.py lines 149-153). -/
def scaleNote (time_multiplier : ℚ) (n : Note) : Note :=
  ⟨n.start * time_multiplier, n.endt * time_multiplier, n.pitch⟩

/-- The sort key of line 158: ascending lexicographically by
`(start, pitch)`. -/
def noteLe (a b : Note) : Prop :=
  a.start < b.start ∨ (a.start = b.start ∧ a.pitch ≤ b.pitch)

instance : DecidableRel noteLe := fun a b => by unfold noteLe; infer_instance

/-- The stable sort of line 158 (`sorted` with key `(start, pitch)`); a
stable sort by a total preorder is unique, so insertion sort agrees with
Python's Timsort. -/
def sortNotes (l : List Note) : List Note := l.insertionSort noteLe

/-- Line 161: `sorted(set(map(lambda x: x[0], midi_list)))`, the distinct
start times in ascending order. -/
def startValues (l : List Note) : List ℚ :=
  ((l.map (·.start)).dedup).insertionSort (· ≤ ·)

/-- Line 162: one group per distinct start time, each group listing (in
sorted order) the notes having that start. -/
def group_by_start_time (l : List Note) : List (List Note) :=
  (startValues l).map (fun x => l.filter (fun y => decide (y.start = x)))

/-- One iteration of the accept gate (src/midi_postprocessing.py
lines 176-192): accept the first note unconditionally; afterwards accept
only when `note.start ≥ previous.end`, first rewriting the previous note's
end to `note.start` when legato is on; otherwise drop the note. -/
def acceptStep (add_legato : Bool) (selected : List Note) (note : Note) :
    List Note :=
  match selected.getLast? with
  | none => [note]
  | some prev =>
      if prev.endt ≤ note.start then
        (if add_legato then
            selected.dropLast ++ [⟨prev.start, note.start, prev.pitch⟩]
          else selected) ++ [note]
      else selected

/-- The per-group loop of lines 166-192: candidate selection (the selector
for polyphonic groups, `group[0]` otherwise), range fitting, accept gate.
`i` indexes the coin stream. -/
def processGroups (range_min range_max logic_type : ℤ) (add_legato : Bool)
    (coin : Nat → Bool) :
    Nat → List Note → List (List Note) → Option (List Note)
  | _, selected, [] => some selected
  | i, selected, g :: gs =>
    match (if 1 < g.length then select_note_from_group g logic_type (coin i)
           else g.head?) with
    | none => none
    | some note =>
        processGroups range_min range_max logic_type add_legato coin (i + 1)
          (acceptStep add_legato selected (fit_to_pitch_range note range_min range_max))
          gs

/-- Embedding of the `midi_postprocessing` pipeline
(src/midi_postprocessing.py lines 99-212), from the flat event list the
reader produces to the final selected sequence and the returned count. -/
def midi_postprocessing (events : List Note) (range_min range_max : ℤ)
    (time_multiplier : ℚ) (logic_type : ℤ) (add_legato : Bool)
    (coin : Nat → Bool) : Option (List Note × Nat) :=
  let midi_list := sortNotes (events.map (scaleNote time_multiplier))
  let groups := group_by_start_time midi_list
  match processGroups range_min range_max logic_type add_legato coin 0 [] groups with
  | none => none
  | some selected => some (selected, selected.length)

/-! ### Basic facts about the embedded functions -/

theorem pyIndex_mem {l : List Note} {i : ℤ} {x : Note}
    (h : pyIndex l i = some x) : x ∈ l := by
  unfold pyIndex at h
  split at h
  · exact List.getElem?_mem h
  · split at h
    · exact List.getElem?_mem h
    · exact absurd h (by simp)

theorem select_note_from_group_mem {g : List Note} {lt : ℤ} {c : Bool} {x : Note}
    (h : select_note_from_group g lt c = some x) : x ∈ g := by
  unfold select_note_from_group at h
  split at h
  · exact absurd h (by simp)
  · exact pyIndex_mem h

theorem fit_to_pitch_range_start (note : Note) (rmin rmax : ℤ) :
    (fit_to_pitch_range note rmin rmax).start = note.start := by
  unfold fit_to_pitch_range
  split <;> [rfl; split <;> rfl]

theorem fit_to_pitch_range_endt (note : Note) (rmin rmax : ℤ) :
    (fit_to_pitch_range note rmin rmax).endt = note.endt := by
  unfold fit_to_pitch_range
  split <;> [rfl; split <;> rfl]

/-- Bounds on the octave count: `a ≤ 12⌈a/12⌉ ≤ a + 11`. -/
theorem ceil_div_twelve_bounds (a : ℤ) :
    a ≤ 12 * ⌈((a : ℚ)) / 12⌉ ∧ 12 * ⌈((a : ℚ)) / 12⌉ ≤ a + 11 := by
  constructor
  · have h := Int.le_ceil ((a : ℚ) / 12)
    have h12 : (a : ℚ) ≤ 12 * ⌈((a : ℚ)) / 12⌉ := by
      rw [div_le_iff₀ (by norm_num : (0:ℚ) < 12)] at h
      linarith
    exact_mod_cast h12
  · have h := Int.ceil_lt_add_one ((a : ℚ) / 12)
    have h' : (⌈((a : ℚ)) / 12⌉ : ℚ) * 12 < ((a : ℚ) / 12 + 1) * 12 :=
      mul_lt_mul_of_pos_right h (by norm_num)
    have e : ((a : ℚ) / 12 + 1) * 12 = a + 12 := by field_simp
    rw [e] at h'
    have h12' : (12 : ℤ) * ⌈((a : ℚ)) / 12⌉ < a + 12 := by
      have : ((12 : ℤ) * ⌈((a : ℚ)) / 12⌉ : ℚ) < ((a : ℤ) + 12 : ℚ) := by push_cast; linarith
      exact_mod_cast this
    omega

/-- Range containment of the fitted pitch, given at least an octave of
span. -/
theorem fit_to_pitch_range_mem (note : Note) (rmin rmax : ℤ)
    (h : rmin + 11 ≤ rmax) :
    rmin ≤ (fit_to_pitch_range note rmin rmax).pitch ∧
      (fit_to_pitch_range note rmin rmax).pitch ≤ rmax := by
  unfold fit_to_pitch_range
  split
  · rename_i hgt
    have hb := ceil_div_twelve_bounds (note.pitch - rmax)
    simp only
    omega
  · split
    · rename_i hlt
      have hb := ceil_div_twelve_bounds (rmin - note.pitch)
      simp only
      omega
    · rename_i h1 h2
      omega

/-- Case analysis of one iteration of the accept gate. -/
theorem acceptStep_spec (legato : Bool) (sel : List Note) (note : Note) :
    (sel = [] ∧ acceptStep legato sel note = [note]) ∨
    (∃ prev, sel.getLast? = some prev ∧ ¬ prev.endt ≤ note.start ∧
        acceptStep legato sel note = sel) ∨
    (∃ prev, sel.getLast? = some prev ∧ prev.endt ≤ note.start ∧ legato = false ∧
        acceptStep legato sel note = sel ++ [note]) ∨
    (∃ prev, sel.getLast? = some prev ∧ prev.endt ≤ note.start ∧ legato = true ∧
        acceptStep legato sel note =
          sel.dropLast ++ [⟨prev.start, note.start, prev.pitch⟩, note]) := by
  unfold acceptStep
  match hlast : sel.getLast? with
  | none =>
      left
      have : sel = [] := by
        cases sel with
        | nil => rfl
        | cons a l => simp [List.getLast?_eq_getLast] at hlast
      exact ⟨this, rfl⟩
  | some prev =>
      right
      by_cases hle : prev.endt ≤ note.start
      · cases legato with
        | false =>
            right; left
            exact ⟨prev, rfl, hle, rfl, by simp [hle]⟩
        | true =>
            right; right
            exact ⟨prev, rfl, hle, rfl, by simp [hle]⟩
      · left
        exact ⟨prev, rfl, hle, by simp [hle]⟩

/-- The accept gate preserves the non-overlap chain. -/
theorem chain'_acceptStep_le {legato : Bool} {sel : List Note} {note : Note}
    (h : List.Chain' (fun a b => a.endt ≤ b.start) sel) :
    List.Chain' (fun a b => a.endt ≤ b.start) (acceptStep legato sel note) := by
  rcases acceptStep_spec legato sel note with
    ⟨-, he⟩ | ⟨prev, hl, hle, he⟩ | ⟨prev, hl, hle, -, he⟩ | ⟨prev, hl, hle, -, he⟩
  · rw [he]; simp
  · rw [he]; exact h
  · rw [he, List.chain'_append]
    refine ⟨h, List.chain'_singleton _, ?_⟩
    intro x hx y hy
    simp only [List.head?_cons, Option.mem_def, Option.some.injEq] at hy
    rw [hl, Option.mem_def, Option.some.injEq] at hx
    subst hx; subst hy
    exact hle
  · have hsel : sel.dropLast ++ [prev] = sel := List.dropLast_append_getLast? prev hl
    have h' : List.Chain' (fun a b => a.endt ≤ b.start) (sel.dropLast ++ [prev]) := by
      rw [hsel]; exact h
    rw [he, List.chain'_append]
    refine ⟨(List.chain'_append.mp h').1, ?_, ?_⟩
    · exact List.chain'_pair.mpr (le_refl _)
    · intro x hx y hy
      simp only [List.head?_cons, Option.mem_def, Option.some.injEq] at hy
      subst hy
      exact (List.chain'_append.mp h').2.2 x hx prev (by simp)

/-- With legato on, the accept gate preserves the exact-stitching chain. -/
theorem chain'_acceptStep_eq {sel : List Note} {note : Note}
    (h : List.Chain' (fun a b => a.endt = b.start) sel) :
    List.Chain' (fun a b => a.endt = b.start) (acceptStep true sel note) := by
  rcases acceptStep_spec true sel note with
    ⟨-, he⟩ | ⟨prev, hl, hle, he⟩ | ⟨prev, hl, hle, hleg, he⟩ | ⟨prev, hl, hle, -, he⟩
  · rw [he]; simp
  · rw [he]; exact h
  · exact absurd hleg (by simp)
  · have hsel : sel.dropLast ++ [prev] = sel := List.dropLast_append_getLast? prev hl
    have h' : List.Chain' (fun a b => a.endt = b.start) (sel.dropLast ++ [prev]) := by
      rw [hsel]; exact h
    rw [he, List.chain'_append]
    refine ⟨(List.chain'_append.mp h').1, ?_, ?_⟩
    · exact List.chain'_pair.mpr rfl
    · intro x hx y hy
      simp only [List.head?_cons, Option.mem_def, Option.some.injEq] at hy
      subst hy
      exact (List.chain'_append.mp h').2.2 x hx prev (by simp)

/-- Members of the gate's output: the new note, an old note, or the old
last note with only its end rewritten. -/
theorem acceptStep_mem {legato : Bool} {sel : List Note} {note x : Note}
    (hx : x ∈ acceptStep legato sel note) :
    x = note ∨ x ∈ sel ∨
      ∃ prev, sel.getLast? = some prev ∧ prev.endt ≤ note.start ∧
        x = ⟨prev.start, note.start, prev.pitch⟩ := by
  rcases acceptStep_spec legato sel note with
    ⟨-, he⟩ | ⟨prev, hl, hle, he⟩ | ⟨prev, hl, hle, -, he⟩ | ⟨prev, hl, hle, -, he⟩
  · rw [he] at hx; exact Or.inl (List.mem_singleton.mp hx)
  · rw [he] at hx; exact Or.inr (Or.inl hx)
  · rw [he] at hx
    rcases List.mem_append.mp hx with hx | hx
    · exact Or.inr (Or.inl hx)
    · exact Or.inl (List.mem_singleton.mp hx)
  · rw [he] at hx
    rcases List.mem_append.mp hx with hx | hx
    · exact Or.inr (Or.inl (List.dropLast_sublist sel |>.mem hx))
    · simp only [List.mem_cons] at hx
      rcases hx with hx | hx | hx
      · exact Or.inr (Or.inr ⟨prev, hl, hle, hx⟩)
      · exact Or.inl hx
      · exact absurd hx (List.not_mem_nil x)

/-- The gate either leaves the sequence unchanged or puts the new note
last. -/
theorem acceptStep_getLast? (legato : Bool) (sel : List Note) (note : Note) :
    (acceptStep legato sel note).getLast? = some note ∨
      acceptStep legato sel note = sel := by
  rcases acceptStep_spec legato sel note with
    ⟨-, he⟩ | ⟨prev, hl, hle, he⟩ | ⟨prev, hl, hle, -, he⟩ | ⟨prev, hl, hle, -, he⟩
  · rw [he]; left; rfl
  · exact Or.inr he
  · rw [he]; left; exact List.getLast?_concat _
  · rw [he]; left
    have : sel.dropLast ++ [⟨prev.start, note.start, prev.pitch⟩, note] =
        (sel.dropLast ++ [⟨prev.start, note.start, prev.pitch⟩]) ++ [note] := by
      simp
    rw [this]
    exact List.getLast?_concat _

/-- The gate adds at most one note. -/
theorem acceptStep_length_le (legato : Bool) (sel : List Note) (note : Note) :
    (acceptStep legato sel note).length ≤ sel.length + 1 := by
  rcases acceptStep_spec legato sel note with
    ⟨hnil, he⟩ | ⟨prev, hl, hle, he⟩ | ⟨prev, hl, hle, -, he⟩ | ⟨prev, hl, hle, -, he⟩
  · rw [he, hnil]; simp
  · rw [he]; omega
  · rw [he]; simp
  · rw [he]
    have hne : sel ≠ [] := by
      intro hcon; rw [hcon] at hl; simp at hl
    have : sel.dropLast.length = sel.length - 1 := List.length_dropLast sel
    have hpos : 0 < sel.length := List.length_pos.mpr hne
    simp only [List.length_append, List.length_cons, List.length_nil,
      List.length_dropLast]
    omega

/-- Master invariant for the per-group loop: any predicate preserved by
the gate on range-fitted group members is carried to the output. -/
theorem processGroups_inv (rmin rmax lt : ℤ) (legato : Bool) (coin : Nat → Bool)
    (P : List Note → Prop) :
    ∀ gs (i : Nat) (sel out : List Note),
      (∀ sel' g cand, g ∈ gs → cand ∈ g → P sel' →
          P (acceptStep legato sel' (fit_to_pitch_range cand rmin rmax))) →
      P sel →
      processGroups rmin rmax lt legato coin i sel gs = some out → P out := by
  intro gs
  induction gs with
  | nil =>
      intro i sel out _ hP hp
      simp only [processGroups, Option.some.injEq] at hp
      rw [← hp]; exact hP
  | cons g gs ih =>
      intro i sel out hstep hP hp
      simp only [processGroups] at hp
      cases hnote : (if 1 < g.length then select_note_from_group g lt (coin i)
          else g.head?) with
      | none => rw [hnote] at hp; simp at hp
      | some note =>
          rw [hnote] at hp
          have hmem : note ∈ g := by
            split at hnote
            · exact select_note_from_group_mem hnote
            · exact List.mem_of_mem_head? hnote
          exact ih (i + 1) _ out
            (fun sel' g' cand hg' => hstep sel' g' cand (List.mem_cons_of_mem _ hg'))
            (hstep sel g note (List.mem_cons_self _ _) hmem hP) hp

/-- Members of a time-group come from the grouped list. -/
theorem mem_of_mem_group {l : List Note} {g : List Note} {x : Note}
    (hg : g ∈ group_by_start_time l) (hx : x ∈ g) : x ∈ l := by
  unfold group_by_start_time at hg
  rcases List.mem_map.mp hg with ⟨v, -, hv⟩
  rw [← hv] at hx
  exact List.mem_of_mem_filter hx

/-- Every time-group is non-empty. -/
theorem group_ne_nil {l : List Note} {g : List Note}
    (hg : g ∈ group_by_start_time l) : g ≠ [] := by
  unfold group_by_start_time at hg
  rcases List.mem_map.mp hg with ⟨v, hv, hgv⟩
  unfold startValues at hv
  have hv' : v ∈ (l.map (·.start)).dedup :=
    ((List.perm_insertionSort _ _).mem_iff).mp hv
  have hv'' : v ∈ l.map (·.start) := List.mem_dedup.mp hv'
  rcases List.mem_map.mp hv'' with ⟨y, hy, hyv⟩
  intro hcon
  rw [← hgv] at hcon
  have : y ∈ l.filter (fun z => decide (z.start = v)) :=
    List.mem_filter.mpr ⟨hy, by simp [hyv]⟩
  rw [hcon] at this
  exact absurd this (List.not_mem_nil y)

/-- There are at most as many time-groups as notes. -/
theorem length_group_by_start_time_le (l : List Note) :
    (group_by_start_time l).length ≤ l.length := by
  unfold group_by_start_time startValues
  rw [List.length_map]
  calc ((l.map (·.start)).dedup.insertionSort (· ≤ ·)).length
      = (l.map (·.start)).dedup.length :=
        ((List.perm_insertionSort _ _).length_eq)
    _ ≤ (l.map (·.start)).length := (List.dedup_sublist _).length_le
    _ = l.length := List.length_map _ _

theorem mem_sortNotes {l : List Note} {x : Note} : x ∈ sortNotes l ↔ x ∈ l :=
  (List.perm_insertionSort _ _).mem_iff

theorem length_sortNotes (l : List Note) : (sortNotes l).length = l.length :=
  (List.perm_insertionSort _ _).length_eq

/-- Successful runs of the pipeline, unfolded. -/
theorem midi_postprocessing_eq_some {events : List Note} {rmin rmax : ℤ}
    {m : ℚ} {lt : ℤ} {legato : Bool} {coin : Nat → Bool} {sel : List Note} {n : Nat}
    (h : midi_postprocessing events rmin rmax m lt legato coin = some (sel, n)) :
    processGroups rmin rmax lt legato coin 0 []
        (group_by_start_time (sortNotes (events.map (scaleNote m)))) = some sel ∧
      n = sel.length := by
  simp only [midi_postprocessing] at h
  cases hpg : processGroups rmin rmax lt legato coin 0 []
      (group_by_start_time (sortNotes (events.map (scaleNote m)))) with
  | none => rw [hpg] at h; simp at h
  | some s =>
      rw [hpg] at h
      simp only [Option.some.injEq, Prod.mk.injEq] at h
      obtain ⟨h1, h2⟩ := h
      subst h1
      exact ⟨rfl, h2.symm⟩

theorem mem_of_getLast? {l : List Note} {a : Note} (h : l.getLast? = some a) :
    a ∈ l := by
  have hl := List.dropLast_append_getLast? a h
  rw [← hl]
  exact List.mem_append_right _ (List.mem_singleton.mpr rfl)

/-- Without legato, the gate either drops the note or appends it; the
already-selected notes are untouched. -/
theorem acceptStep_false (sel : List Note) (note : Note) :
    acceptStep false sel note = sel ∨ acceptStep false sel note = sel ++ [note] := by
  rcases acceptStep_spec false sel note with
    ⟨hnil, he⟩ | ⟨p, hl, hle, he⟩ | ⟨p, hl, hle, -, he⟩ | ⟨p, hl, hle, hleg, he⟩
  · rw [he, hnil]; exact Or.inr rfl
  · exact Or.inl he
  · exact Or.inr he
  · exact absurd hleg (by simp)

/-- Every note of the sorted, scaled working list is a scaled input
event. -/
theorem mem_scaled {events : List Note} {m : ℚ} {x : Note}
    (hx : x ∈ sortNotes (events.map (scaleNote m))) :
    ∃ ev ∈ events, x = scaleNote m ev := by
  rcases List.mem_map.mp (mem_sortNotes.mp hx) with ⟨ev, hev, hx'⟩
  exact ⟨ev, hev, hx'.symm⟩

/-- The loop adds at most one note per group. -/
theorem processGroups_length (rmin rmax lt : ℤ) (legato : Bool)
    (coin : Nat → Bool) :
    ∀ gs (i : Nat) (sel out : List Note),
      processGroups rmin rmax lt legato coin i sel gs = some out →
      out.length ≤ sel.length + gs.length := by
  intro gs
  induction gs with
  | nil =>
      intro i sel out hp
      simp only [processGroups, Option.some.injEq] at hp
      rw [← hp]; simp
  | cons g gs ih =>
      intro i sel out hp
      simp only [processGroups] at hp
      cases hnote : (if 1 < g.length then select_note_from_group g lt (coin i)
          else g.head?) with
      | none => rw [hnote] at hp; simp at hp
      | some note =>
          rw [hnote] at hp
          have h1 := ih (i + 1) _ out hp
          have h2 := acceptStep_length_le legato sel (fit_to_pitch_range note rmin rmax)
          simp only [List.length_cons]
          omega

/-- With an invalid logic type, the loop fails exactly when it meets a
polyphonic group. -/
theorem processGroups_none_iff (rmin rmax lt : ℤ) (legato : Bool)
    (coin : Nat → Bool) (h : ¬ (0 ≤ lt ∧ lt ≤ 2)) :
    ∀ gs (i : Nat) (sel : List Note), (∀ g ∈ gs, g ≠ []) →
      (processGroups rmin rmax lt legato coin i sel gs = none ↔
        ∃ g ∈ gs, 1 < g.length) := by
  intro gs
  induction gs with
  | nil =>
      intro i sel _
      simp [processGroups]
  | cons g gs ih =>
      intro i sel hne
      by_cases hg : 1 < g.length
      · have hsel : select_note_from_group g lt (coin i) = none := by
          unfold select_note_from_group
          rw [if_pos h]
        have hred : processGroups rmin rmax lt legato coin i sel (g :: gs) = none := by
          simp only [processGroups]
          rw [if_pos hg, hsel]
        rw [hred]
        exact ⟨fun _ => ⟨g, List.mem_cons_self g gs, hg⟩, fun _ => rfl⟩
      · have hgne := hne g (List.mem_cons_self g gs)
        cases g with
        | nil => exact absurd rfl hgne
        | cons a t =>
            have hred : processGroups rmin rmax lt legato coin i sel ((a :: t) :: gs) =
                processGroups rmin rmax lt legato coin (i + 1)
                  (acceptStep legato sel (fit_to_pitch_range a rmin rmax)) gs := by
              simp only [processGroups]
              rw [if_neg hg]
              rfl
            rw [hred, ih (i + 1) _ (fun g' hg' => hne g' (List.mem_cons_of_mem _ hg'))]
            constructor
            · rintro ⟨g', hg', hlen⟩
              exact ⟨g', List.mem_cons_of_mem _ hg', hlen⟩
            · rintro ⟨g', hg', hlen⟩
              rcases List.mem_cons.mp hg' with rfl | h'
              · exact absurd hlen hg
              · exact ⟨g', h', hlen⟩

/-- The pipeline fails exactly when its per-group loop does. -/
theorem midi_postprocessing_eq_none {events : List Note} {rmin rmax : ℤ}
    {m : ℚ} {lt : ℤ} {legato : Bool} {coin : Nat → Bool} :
    midi_postprocessing events rmin rmax m lt legato coin = none ↔
      processGroups rmin rmax lt legato coin 0 []
        (group_by_start_time (sortNotes (events.map (scaleNote m)))) = none := by
  simp only [midi_postprocessing]
  cases hpg : processGroups rmin rmax lt legato coin 0 []
      (group_by_start_time (sortNotes (events.map (scaleNote m)))) with
  | none => simp
  | some s => simp

/-- Every note of a successful output starts at the scaled start time of
some input event. -/
theorem output_starts_scaled {events : List Note} {rmin rmax : ℤ} {m : ℚ}
    {lt : ℤ} {legato : Bool} {coin : Nat → Bool} {sel : List Note} {n : Nat}
    (h : midi_postprocessing events rmin rmax m lt legato coin = some (sel, n)) :
    ∀ x ∈ sel, ∃ ev ∈ events, x.start = ev.start * m := by
  obtain ⟨hpg, -⟩ := midi_postprocessing_eq_some h
  refine processGroups_inv rmin rmax lt legato coin
    (fun s => ∀ x ∈ s, ∃ ev ∈ events, x.start = ev.start * m) _ 0 [] sel
    ?_ (by simp) hpg
  intro sel' g cand hg hcand hP x hx
  rcases acceptStep_mem hx with hx | hx | ⟨p, hp, -, hx⟩
  · subst hx
    rcases mem_scaled (mem_of_mem_group hg hcand) with ⟨ev, hev, hcand'⟩
    refine ⟨ev, hev, ?_⟩
    rw [fit_to_pitch_range_start, hcand']
    rfl
  · exact hP x hx
  · subst hx
    exact hP p (mem_of_getLast? hp)

/-! ### Arithmetic of the MIDDLE policy -/

theorem floor_q_div (n d : ℕ) (hd : 0 < d) :
    ⌊((n : ℚ)) / ((d : ℕ) : ℚ)⌋ = ((n / d : ℕ) : ℤ) := by
  have hdq : (0 : ℚ) < ((d : ℕ) : ℚ) := by exact_mod_cast hd
  rw [Int.floor_eq_iff]
  constructor
  · rw [le_div_iff₀ hdq]
    exact_mod_cast Nat.div_mul_le_self n d
  · rw [div_lt_iff₀ hdq]
    have hlt : n < (n / d + 1) * d := by
      calc n = d * (n / d) + n % d := (Nat.div_add_mod n d).symm
        _ < d * (n / d) + d := by
            have := Nat.mod_lt n hd
            omega
        _ = (n / d + 1) * d := by ring
    exact_mod_cast hlt

theorem floor_half (n : ℕ) : ⌊((n : ℚ)) / 2⌋ = ((n / 2 : ℕ) : ℤ) := by
  have h := floor_q_div n 2 (by norm_num)
  norm_num at h
  exact h

theorem floor_quarter (n : ℕ) : ⌊((n : ℚ)) / 4⌋ = ((n / 4 : ℕ) : ℤ) := by
  have h := floor_q_div n 4 (by norm_num)
  norm_num at h
  exact h

theorem pyInt_nonneg {x : ℚ} (h : 0 ≤ x) : pyInt x = ⌊x⌋ := by
  unfold pyInt
  rw [if_neg (not_lt.mpr h)]

theorem pyIndex_natCast (l : List Note) (k : ℕ) :
    pyIndex l ((k : ℕ) : ℤ) = l[k]? := by
  unfold pyIndex
  rw [if_pos (by positivity)]
  norm_num

/-- The exact floating check `middle % 2 == 0` of line 49 holds precisely
when the group length is a multiple of 4. -/
theorem middle_cond_iff (n : ℕ) :
    ((n : ℚ) / 2 - 2 * (⌊((n : ℚ) / 2) / 2⌋ : ℚ) = 0) ↔ 4 ∣ n := by
  have hq : ((n : ℚ) / 2) / 2 = (n : ℚ) / 4 := by ring
  rw [hq, floor_quarter]
  constructor
  · intro h
    rw [sub_eq_zero] at h
    have h2 : (n : ℚ) = 4 * (((n / 4 : ℕ) : ℤ) : ℚ) := by linarith
    have hn : (n : ℤ) = 4 * ((n / 4 : ℕ) : ℤ) := by exact_mod_cast h2
    have hn' : n = 4 * (n / 4) := by exact_mod_cast hn
    exact ⟨n / 4, hn'⟩
  · rintro ⟨k, rfl⟩
    have hk : (4 * k : ℕ) / 4 = k := by omega
    rw [hk]
    push_cast
    ring

/-- Unfolding the selector at logic type 0. -/
theorem select_zero_eq (g : List Note) (c : Bool) :
    select_note_from_group g 0 c = g[0]? := by
  unfold select_note_from_group
  norm_num
  exact pyIndex_natCast g 0

/-- Unfolding the selector at logic type 2. -/
theorem select_two_eq (g : List Note) (c : Bool) :
    select_note_from_group g 2 c = g[g.length - 1]? := by
  unfold select_note_from_group
  norm_num
  cases g with
  | nil =>
      unfold pyIndex
      norm_num
  | cons a t =>
      have hlen : ((a :: t).length : ℤ) - 1 = (((a :: t).length - 1 : ℕ) : ℤ) := by
        simp only [List.length_cons]
        push_cast
        omega
      rw [hlen, pyIndex_natCast]

/-- Unfolding the selector at logic type 1. -/
theorem select_one_eq (g : List Note) (c : Bool) :
    select_note_from_group g 1 c =
      pyIndex g
        (if (g.length : ℚ) / 2 - 2 * (⌊((g.length : ℚ) / 2) / 2⌋ : ℚ) = 0 ∨
            g.length = 2 then
          if c then pyInt ((g.length : ℚ) / 2) else pyInt ((g.length : ℚ) / 2 - 1)
        else pyInt ((g.length : ℚ) / 2 - 1 / 2)) := by
  unfold select_note_from_group
  norm_num

/-- MIDDLE policy, tie-break branch: lengths 2 or multiples of 4 pick at
random (via the coin) between the central index pair. -/
theorem select_middle_random (g : List Note) (c : Bool)
    (h2 : 2 ≤ g.length) (hc : 4 ∣ g.length ∨ g.length = 2) :
    select_note_from_group g 1 c =
      if c then g[g.length / 2]? else g[g.length / 2 - 1]? := by
  have hcond : (g.length : ℚ) / 2 - 2 * (⌊((g.length : ℚ) / 2) / 2⌋ : ℚ) = 0 ∨
      g.length = 2 := by
    rcases hc with hdvd | h2'
    · exact Or.inl ((middle_cond_iff g.length).mpr hdvd)
    · exact Or.inr h2'
  rw [select_one_eq, if_pos hcond]
  have hhalf : (0 : ℚ) ≤ (g.length : ℚ) / 2 := by positivity
  have hone : (1 : ℚ) ≤ (g.length : ℚ) / 2 := by
    have : (2 : ℚ) ≤ (g.length : ℚ) := by exact_mod_cast h2
    linarith
  cases c with
  | true =>
      rw [if_pos rfl, if_pos rfl, pyInt_nonneg hhalf, floor_half, pyIndex_natCast]
  | false =>
      rw [if_neg (by simp), if_neg (by simp), pyInt_nonneg (by linarith),
        Int.floor_sub_one, floor_half]
      have hge : 1 ≤ g.length / 2 := by omega
      have hcast : ((g.length / 2 : ℕ) : ℤ) - 1 = (((g.length / 2 - 1 : ℕ)) : ℤ) := by
        push_cast [hge]
        omega
      rw [hcast, pyIndex_natCast]

/-- MIDDLE policy, deterministic branch: all other lengths pick the index
`middle - 0.5`, i.e. `(length - 1) / 2`. -/
theorem select_middle_det (g : List Note) (c : Bool)
    (h1 : 1 ≤ g.length) (hc : ¬ (4 ∣ g.length ∨ g.length = 2)) :
    select_note_from_group g 1 c = g[(g.length - 1) / 2]? := by
  push_neg at hc
  have hcond : ¬ ((g.length : ℚ) / 2 - 2 * (⌊((g.length : ℚ) / 2) / 2⌋ : ℚ) = 0 ∨
      g.length = 2) := by
    push_neg
    exact ⟨fun h => hc.1 ((middle_cond_iff g.length).mp h), hc.2⟩
  rw [select_one_eq, if_neg hcond]
  have heq : (g.length : ℚ) / 2 - 1 / 2 = (((g.length - 1 : ℕ)) : ℚ) / 2 := by
    push_cast [h1]
    ring
  have hnn : (0 : ℚ) ≤ (g.length : ℚ) / 2 - 1 / 2 := by
    have : (1 : ℚ) ≤ (g.length : ℚ) := by exact_mod_cast h1
    linarith
  rw [pyInt_nonneg hnn, heq, floor_half, pyIndex_natCast]

theorem getElem?_exists_mem {l : List Note} {k : ℕ} (hk : k < l.length) :
    ∃ x ∈ l, l[k]? = some x :=
  ⟨l[k], List.getElem_mem hk, List.getElem?_eq_getElem hk⟩

/-! ### The claims -/

/-- C1: every successful pipeline output is non-overlapping — adjacent
notes `a, b` satisfy `a.end ≤ b.start` — and a candidate whose start time
precedes the previously accepted note's end leaves the selection
unchanged: it is dropped, never appended. -/
theorem claim_C1_no_overlap (events : List Note) (rmin rmax : ℤ) (m : ℚ)
    (lt : ℤ) (legato : Bool) (coin : Nat → Bool) (sel sel' : List Note)
    (n : Nat) (note prev : Note) :
    (midi_postprocessing events rmin rmax m lt legato coin = some (sel, n) →
      List.Chain' (fun a b => a.endt ≤ b.start) sel) ∧
    (sel'.getLast? = some prev → note.start < prev.endt →
      acceptStep legato sel' note = sel') := by
  constructor
  · intro h
    obtain ⟨hpg, -⟩ := midi_postprocessing_eq_some h
    exact processGroups_inv rmin rmax lt legato coin
      (List.Chain' fun a b => a.endt ≤ b.start) _ 0 [] sel
      (fun sel₀ g cand _ _ hP => chain'_acceptStep_le hP) (by simp) hpg
  · intro hlast hlt
    rcases acceptStep_spec legato sel' note with
      ⟨hnil, -⟩ | ⟨p, hl, hle, he⟩ | ⟨p, hl, hle, -, -⟩ | ⟨p, hl, hle, -, -⟩
    · rw [hnil] at hlast; simp at hlast
    · exact he
    · rw [hl] at hlast
      injection hlast with hpe
      subst hpe
      exact absurd hle (not_le.mpr hlt)
    · rw [hl] at hlast
      injection hlast with hpe
      subst hpe
      exact absurd hle (not_le.mpr hlt)

/-- C2: with at least an octave of span (`max - min ≥ 11`), the range
fitter lands in `[min, max]`, and every note of a successful pipeline
output has `min ≤ pitch ≤ max`. -/
theorem claim_C2_range (note₀ : Note) (events : List Note) (rmin rmax : ℤ)
    (m : ℚ) (lt : ℤ) (legato : Bool) (coin : Nat → Bool) (sel : List Note)
    (n : Nat) :
    (rmin + 11 ≤ rmax →
      rmin ≤ (fit_to_pitch_range note₀ rmin rmax).pitch ∧
        (fit_to_pitch_range note₀ rmin rmax).pitch ≤ rmax) ∧
    (rmin + 11 ≤ rmax →
      midi_postprocessing events rmin rmax m lt legato coin = some (sel, n) →
      ∀ x ∈ sel, rmin ≤ x.pitch ∧ x.pitch ≤ rmax) := by
  constructor
  · exact fit_to_pitch_range_mem note₀ rmin rmax
  · intro hspan h
    obtain ⟨hpg, -⟩ := midi_postprocessing_eq_some h
    refine processGroups_inv rmin rmax lt legato coin
      (fun s => ∀ x ∈ s, rmin ≤ x.pitch ∧ x.pitch ≤ rmax) _ 0 [] sel
      ?_ (by simp) hpg
    intro sel₀ g cand _ _ hP x hx
    rcases acceptStep_mem hx with hx | hx | ⟨p, hp, -, hx⟩
    · subst hx
      exact fit_to_pitch_range_mem cand rmin rmax hspan
    · exact hP x hx
    · subst hx
      exact hP p (mem_of_getLast? hp)

/-- C3: with legato enabled, adjacent accepted notes touch exactly
(`a.end = b.start`); acceptance rewrites the previous note's end to the
candidate's start before appending the candidate. -/
theorem claim_C3_legato (events : List Note) (rmin rmax : ℤ) (m : ℚ) (lt : ℤ)
    (coin : Nat → Bool) (sel sel' : List Note) (n : Nat) (note prev : Note) :
    (midi_postprocessing events rmin rmax m lt true coin = some (sel, n) →
      List.Chain' (fun a b => a.endt = b.start) sel) ∧
    (sel'.getLast? = some prev → prev.endt ≤ note.start →
      acceptStep true sel' note =
        sel'.dropLast ++ [⟨prev.start, note.start, prev.pitch⟩, note]) := by
  constructor
  · intro h
    obtain ⟨hpg, -⟩ := midi_postprocessing_eq_some h
    exact processGroups_inv rmin rmax lt true coin
      (List.Chain' fun a b => a.endt = b.start) _ 0 [] sel
      (fun sel₀ g cand _ _ hP => chain'_acceptStep_eq hP) (by simp) hpg
  · intro hlast hle
    rcases acceptStep_spec true sel' note with
      ⟨hnil, -⟩ | ⟨p, hl, hnle, -⟩ | ⟨p, hl, -, hleg, -⟩ | ⟨p, hl, -, -, he⟩
    · rw [hnil] at hlast; simp at hlast
    · rw [hl] at hlast
      injection hlast with hpe
      subst hpe
      exact absurd hle hnle
    · exact absurd hleg (by simp)
    · rw [hl] at hlast
      injection hlast with hpe
      subst hpe
      exact he

/-- C4: the range fitter computes exactly one octave-quantized jump —
down by `12⌈(p - max)/12⌉` when `p > max`, up by `12⌈(min - p)/12⌉` when
`p < min`, otherwise no change — with no re-check afterwards (the result
of a down-jump always lands in `(max - 12, max]`, of an up-jump in
`[min, min + 12)`, whatever the span); for pitch 90 and range `[48, 72]`
the result is 66. -/
theorem claim_C4_fit_formula (note : Note) (rmin rmax : ℤ) :
    (rmax < note.pitch →
      (fit_to_pitch_range note rmin rmax).pitch =
          note.pitch - 12 * ⌈((note.pitch - rmax : ℤ) : ℚ) / 12⌉ ∧
        rmax - 12 < (fit_to_pitch_range note rmin rmax).pitch ∧
        (fit_to_pitch_range note rmin rmax).pitch ≤ rmax) ∧
    (¬ rmax < note.pitch → note.pitch < rmin →
      (fit_to_pitch_range note rmin rmax).pitch =
          note.pitch + 12 * ⌈((rmin - note.pitch : ℤ) : ℚ) / 12⌉ ∧
        rmin ≤ (fit_to_pitch_range note rmin rmax).pitch ∧
        (fit_to_pitch_range note rmin rmax).pitch < rmin + 12) ∧
    (rmin ≤ note.pitch → note.pitch ≤ rmax →
      fit_to_pitch_range note rmin rmax = note) ∧
    fit_to_pitch_range ⟨0, 1, 90⟩ 48 72 = ⟨0, 1, 66⟩ := by
  refine ⟨?_, ?_, ?_, ?_⟩
  · intro hgt
    have hb := ceil_div_twelve_bounds (note.pitch - rmax)
    unfold fit_to_pitch_range
    rw [if_pos hgt]
    refine ⟨rfl, ?_, ?_⟩ <;> simp only <;> omega
  · intro hngt hlt
    have hb := ceil_div_twelve_bounds (rmin - note.pitch)
    unfold fit_to_pitch_range
    rw [if_neg hngt, if_pos hlt]
    refine ⟨rfl, ?_, ?_⟩ <;> simp only <;> omega
  · intro h1 h2
    unfold fit_to_pitch_range
    rw [if_neg (not_lt.mpr h2), if_neg (not_lt.mpr h1)]
  · have hc : (⌈(3 / 2 : ℚ)⌉ : ℤ) = 2 := by
      rw [Int.ceil_eq_iff]
      norm_num
    norm_num [fit_to_pitch_range, hc]

/-- C6 (amended): with a logic type outside `{0, 1, 2}`, the pipeline
fails if and only if some (post-scaling) start-time group is polyphonic;
in particular, scaling, sorting and grouping all happen, and a purely
monophonic input succeeds despite the invalid policy. -/
theorem claim_C6_invalid_policy (events : List Note) (rmin rmax : ℤ) (m : ℚ)
    (lt : ℤ) (legato : Bool) (coin : Nat → Bool) :
    ¬ (0 ≤ lt ∧ lt ≤ 2) →
    (midi_postprocessing events rmin rmax m lt legato coin = none ↔
      ∃ g ∈ group_by_start_time (sortNotes (events.map (scaleNote m))),
        1 < g.length) := by
  intro h
  rw [midi_postprocessing_eq_none]
  exact processGroups_none_iff rmin rmax lt legato coin h _ 0 []
    (fun g hg => group_ne_nil hg)

/-- C7 (amended): start times always scale; end times scale when legato
is off, while with legato on only the final note keeps its scaled end and
every other accepted note's end is rewritten to the next note's start. -/
theorem claim_C7_time_scaling (events : List Note) (rmin rmax : ℤ) (m : ℚ)
    (lt : ℤ) (legato : Bool) (coin : Nat → Bool) (sel : List Note) (n : Nat) :
    0 < m →
    midi_postprocessing events rmin rmax m lt legato coin = some (sel, n) →
      (∀ x ∈ sel, ∃ ev ∈ events, x.start = ev.start * m) ∧
      (legato = false →
        ∀ x ∈ sel, ∃ ev ∈ events, x.start = ev.start * m ∧ x.endt = ev.endt * m) ∧
      (legato = true →
        List.Chain' (fun a b => a.endt = b.start) sel ∧
        ∀ x, sel.getLast? = some x → ∃ ev ∈ events, x.endt = ev.endt * m) := by
  intro hm h
  obtain ⟨hpg, -⟩ := midi_postprocessing_eq_some h
  refine ⟨output_starts_scaled h, ?_, ?_⟩
  · rintro rfl
    refine processGroups_inv rmin rmax lt false coin
      (fun s => ∀ x ∈ s, ∃ ev ∈ events, x.start = ev.start * m ∧ x.endt = ev.endt * m)
      _ 0 [] sel ?_ (by simp) hpg
    intro sel₀ g cand hg hcand hP x hx
    rcases acceptStep_false sel₀ (fit_to_pitch_range cand rmin rmax) with he | he
    · rw [he] at hx
      exact hP x hx
    · rw [he] at hx
      rcases List.mem_append.mp hx with hx | hx
      · exact hP x hx
      · have hx' := List.mem_singleton.mp hx
        subst hx'
        rcases mem_scaled (mem_of_mem_group hg hcand) with ⟨ev, hev, hcand'⟩
        refine ⟨ev, hev, ?_, ?_⟩
        · rw [fit_to_pitch_range_start, hcand']; rfl
        · rw [fit_to_pitch_range_endt, hcand']; rfl
  · rintro rfl
    constructor
    · exact processGroups_inv rmin rmax lt true coin
        (List.Chain' fun a b => a.endt = b.start) _ 0 [] sel
        (fun sel₀ g cand _ _ hP => chain'_acceptStep_eq hP) (by simp) hpg
    · refine processGroups_inv rmin rmax lt true coin
        (fun s => ∀ x, s.getLast? = some x → ∃ ev ∈ events, x.endt = ev.endt * m)
        _ 0 [] sel ?_ (by simp) hpg
      intro sel₀ g cand hg hcand hP x hx
      rcases acceptStep_getLast? true sel₀ (fit_to_pitch_range cand rmin rmax) with
        hg' | hg'
      · rw [hg'] at hx
        injection hx with hx
        subst hx
        rcases mem_scaled (mem_of_mem_group hg hcand) with ⟨ev, hev, hcand'⟩
        refine ⟨ev, hev, ?_⟩
        rw [fit_to_pitch_range_endt, hcand']
        rfl
      · rw [hg'] at hx
        exact hP x hx

/-- C8: the returned count is the output length, which is at most the
number of distinct post-scaling start-time groups, itself at most the
number of input events; an empty input yields count 0. -/
theorem claim_C8_count (events : List Note) (rmin rmax : ℤ) (m : ℚ) (lt : ℤ)
    (legato : Bool) (coin : Nat → Bool) (sel : List Note) (n : Nat) :
    midi_postprocessing events rmin rmax m lt legato coin = some (sel, n) →
      n = sel.length ∧
      sel.length ≤
        (group_by_start_time (sortNotes (events.map (scaleNote m)))).length ∧
      (group_by_start_time (sortNotes (events.map (scaleNote m)))).length ≤
        events.length ∧
      (events = [] → n = 0) := by
  intro h
  obtain ⟨hpg, hn⟩ := midi_postprocessing_eq_some h
  have h1 : sel.length ≤
      (group_by_start_time (sortNotes (events.map (scaleNote m)))).length := by
    have := processGroups_length rmin rmax lt legato coin _ 0 [] sel hpg
    simpa using this
  have h2 : (group_by_start_time (sortNotes (events.map (scaleNote m)))).length ≤
      events.length := by
    calc (group_by_start_time (sortNotes (events.map (scaleNote m)))).length
        ≤ (sortNotes (events.map (scaleNote m))).length :=
          length_group_by_start_time_le _
      _ = (events.map (scaleNote m)).length := length_sortNotes _
      _ = events.length := List.length_map _ _
  refine ⟨hn, h1, h2, ?_⟩
  intro he
  subst he
  simp only [List.length_nil] at h2
  omega

/-- C9: frame conditions — the range fitter returns start and end
unchanged; the gate either leaves the selection exactly as it was, or
appends the candidate to it unchanged, or appends after replacing only
the last note by a copy whose sole changed field is its end (rewritten
to the candidate's start; start and pitch kept) — so the legato rewrite
touches only the previously accepted note's end and no already accepted
note is otherwise modified; and every output start time is a scaled
input start time. -/
theorem claim_C9_frame (note₀ note₁ : Note) (rmin rmax : ℤ) (legato : Bool)
    (sel₀ : List Note) (events : List Note) (m : ℚ) (lt : ℤ)
    (coin : Nat → Bool) (sel : List Note) (n : Nat) :
    ((fit_to_pitch_range note₀ rmin rmax).start = note₀.start ∧
      (fit_to_pitch_range note₀ rmin rmax).endt = note₀.endt) ∧
    (acceptStep legato sel₀ note₁ = sel₀ ∨
      acceptStep legato sel₀ note₁ = sel₀ ++ [note₁] ∨
      ∃ prev, sel₀.getLast? = some prev ∧
        acceptStep legato sel₀ note₁ =
          sel₀.dropLast ++ [⟨prev.start, note₁.start, prev.pitch⟩, note₁]) ∧
    (midi_postprocessing events rmin rmax m lt legato coin = some (sel, n) →
      ∀ x ∈ sel, ∃ ev ∈ events, x.start = ev.start * m) := by
  refine ⟨⟨fit_to_pitch_range_start _ _ _, fit_to_pitch_range_endt _ _ _⟩, ?_,
    fun h => output_starts_scaled h⟩
  rcases acceptStep_spec legato sel₀ note₁ with
    ⟨hnil, he⟩ | ⟨p, hl, hle, he⟩ | ⟨p, hl, hle, -, he⟩ | ⟨p, hl, hle, -, he⟩
  · right; left; rw [he, hnil]; exact (List.nil_append _).symm
  · left; exact he
  · right; left; exact he
  · right; right; exact ⟨p, hl, he⟩

/-- C10: for groups of length ≥ 2 and any defined logic type, each index
the MIDDLE tie-break can compute — the random candidates `int(middle)`
and `int(middle - 1)` as well as the deterministic `int(middle - 0.5)` —
lies within `[0, length - 1]`, and the selector indexes the group at a
nonnegative in-bounds position (never through the negative-index
fallback), returning a member of the group without faulting. -/
theorem claim_C10_selector_safe (g : List Note) (lt : ℤ) (c : Bool) :
    2 ≤ g.length → 0 ≤ lt → lt ≤ 2 →
    (0 ≤ pyInt ((g.length : ℚ) / 2) ∧
      pyInt ((g.length : ℚ) / 2) ≤ (g.length : ℤ) - 1) ∧
    (0 ≤ pyInt ((g.length : ℚ) / 2 - 1) ∧
      pyInt ((g.length : ℚ) / 2 - 1) ≤ (g.length : ℤ) - 1) ∧
    (0 ≤ pyInt ((g.length : ℚ) / 2 - 1 / 2) ∧
      pyInt ((g.length : ℚ) / 2 - 1 / 2) ≤ (g.length : ℤ) - 1) ∧
    (∃ k : ℕ, k < g.length ∧ select_note_from_group g lt c = g[k]? ∧
      ∃ x ∈ g, select_note_from_group g lt c = some x) := by
  intro h2 h0 hle
  have hlen2 : (2 : ℚ) ≤ (g.length : ℚ) := by exact_mod_cast h2
  have hone : (1 : ℚ) ≤ (g.length : ℚ) / 2 := by linarith
  have e1 : pyInt ((g.length : ℚ) / 2) = ((g.length / 2 : ℕ) : ℤ) := by
    rw [pyInt_nonneg (by positivity), floor_half]
  have e2 : pyInt ((g.length : ℚ) / 2 - 1) = ((g.length / 2 : ℕ) : ℤ) - 1 := by
    rw [pyInt_nonneg (by linarith), Int.floor_sub_one, floor_half]
  have e3 : pyInt ((g.length : ℚ) / 2 - 1 / 2) = (((g.length - 1) / 2 : ℕ) : ℤ) := by
    have heq : (g.length : ℚ) / 2 - 1 / 2 = (((g.length - 1 : ℕ)) : ℚ) / 2 := by
      push_cast [show 1 ≤ g.length by omega]
      ring
    rw [pyInt_nonneg (by linarith), heq, floor_half]
  refine ⟨⟨?_, ?_⟩, ⟨?_, ?_⟩, ⟨?_, ?_⟩, ?_⟩
  · rw [e1]; omega
  · rw [e1]; omega
  · rw [e2]; omega
  · rw [e2]; omega
  · rw [e3]; omega
  · rw [e3]; omega
  · have hcase : lt = 0 ∨ lt = 1 ∨ lt = 2 := by omega
    have hk : ∃ k : ℕ, k < g.length ∧ select_note_from_group g lt c = g[k]? := by
      rcases hcase with rfl | rfl | rfl
      · exact ⟨0, by omega, select_zero_eq g c⟩
      · by_cases hc : 4 ∣ g.length ∨ g.length = 2
        · cases c with
          | true =>
              refine ⟨g.length / 2, by omega, ?_⟩
              rw [select_middle_random g true h2 hc, if_pos rfl]
          | false =>
              refine ⟨g.length / 2 - 1, by omega, ?_⟩
              rw [select_middle_random g false h2 hc, if_neg (by simp)]
        · exact ⟨(g.length - 1) / 2, by omega, select_middle_det g c (by omega) hc⟩
      · exact ⟨g.length - 1, by omega, select_two_eq g c⟩
    obtain ⟨k, hk1, hk2⟩ := hk
    refine ⟨k, hk1, hk2, ?_⟩
    rw [hk2]
    exact getElem?_exists_mem hk1

/-- C5: on a pitch-sorted group of length ≥ 2, LOWEST picks index 0,
HIGHEST picks index `length - 1`; MIDDLE picks at random between indices
`length/2` and `length/2 - 1` exactly when the length is 2 or a multiple
of 4, and otherwise deterministically picks index `(length - 1)/2` (the
true middle for odd lengths, the lower central index for the others). -/
theorem claim_C5_selector (g : List Note) (c : Bool) :
    2 ≤ g.length → List.Chain' (fun a b => a.pitch ≤ b.pitch) g →
    (select_note_from_group g 0 c = g[0]?) ∧
    (select_note_from_group g 2 c = g[g.length - 1]?) ∧
    ((g.length = 2 ∨ 4 ∣ g.length) →
      select_note_from_group g 1 true = g[g.length / 2]? ∧
      select_note_from_group g 1 false = g[g.length / 2 - 1]? ∧
      ∀ c', select_note_from_group g 1 c' = g[g.length / 2]? ∨
        select_note_from_group g 1 c' = g[g.length / 2 - 1]?) ∧
    (¬ (g.length = 2 ∨ 4 ∣ g.length) →
      ∀ c', select_note_from_group g 1 c' = g[(g.length - 1) / 2]?) := by
  intro h2 _
  refine ⟨select_zero_eq g c, select_two_eq g c, ?_, ?_⟩
  · intro hc
    have hc' : 4 ∣ g.length ∨ g.length = 2 := hc.symm
    refine ⟨?_, ?_, ?_⟩
    · rw [select_middle_random g true h2 hc', if_pos rfl]
    · rw [select_middle_random g false h2 hc', if_neg (by simp)]
    · intro c'
      rw [select_middle_random g c' h2 hc']
      cases c' with
      | true => left; rw [if_pos rfl]
      | false => right; rw [if_neg (by simp)]
  · intro hc c'
    exact select_middle_det g c' (by omega) (fun h => hc h.symm)

/-! ### Concrete runs of the pipeline -/

theorem eval_pair_nolegato :
    midi_postprocessing [⟨0, 1, 60⟩, ⟨2, 3, 62⟩] 48 72 1 1 false (fun _ => true) =
      some ([⟨0, 1, 60⟩, ⟨2, 3, 62⟩], 2) := by
  norm_num [midi_postprocessing, sortNotes, startValues, group_by_start_time,
    List.insertionSort, List.orderedInsert, List.filter, processGroups,
    select_note_from_group, fit_to_pitch_range, acceptStep, scaleNote, noteLe]

theorem eval_pair_legato :
    midi_postprocessing [⟨0, 1, 60⟩, ⟨2, 3, 62⟩] 48 72 1 1 true (fun _ => true) =
      some ([⟨0, 2, 60⟩, ⟨2, 3, 62⟩], 2) := by
  norm_num [midi_postprocessing, sortNotes, startValues, group_by_start_time,
    List.insertionSort, List.orderedInsert, List.filter, processGroups,
    select_note_from_group, fit_to_pitch_range, acceptStep, scaleNote, noteLe]

theorem eval_single90 :
    midi_postprocessing [⟨0, 1, 90⟩] 48 72 1 1 true (fun _ => true) =
      some ([⟨0, 1, 66⟩], 1) := by
  have hc : (⌈(3 / 2 : ℚ)⌉ : ℤ) = 2 := by
    rw [Int.ceil_eq_iff]
    norm_num
  norm_num [midi_postprocessing, sortNotes, startValues, group_by_start_time,
    List.insertionSort, List.orderedInsert, List.filter, processGroups,
    select_note_from_group, fit_to_pitch_range, acceptStep, scaleNote, noteLe, hc]

theorem eval_empty :
    midi_postprocessing [] 48 72 1 1 true (fun _ => true) = some ([], 0) := by
  norm_num [midi_postprocessing, sortNotes, startValues, group_by_start_time,
    List.insertionSort, processGroups]

theorem eval_mono_invalid :
    midi_postprocessing [⟨0, 1, 60⟩] 48 72 1 3 true (fun _ => true) =
      some ([⟨0, 1, 60⟩], 1) := by
  norm_num [midi_postprocessing, sortNotes, startValues, group_by_start_time,
    List.insertionSort, List.orderedInsert, List.filter, processGroups,
    select_note_from_group, fit_to_pitch_range, acceptStep, scaleNote, noteLe]

theorem eval_groups_pair :
    group_by_start_time (sortNotes ([⟨0, 1, 60⟩, ⟨0, 1, 64⟩].map (scaleNote 1))) =
      [[⟨0, 1, 60⟩, ⟨0, 1, 64⟩]] := by
  norm_num [sortNotes, startValues, group_by_start_time, List.insertionSort,
    List.orderedInsert, List.filter, scaleNote, noteLe]

/-! ### Counterexamples and witnesses -/

/-- C6 counterexample: logic type 3 lies outside `{0, 1, 2}`, yet a
monophonic input is scaled, sorted, grouped, accepted and returned with
no failure at all — the pipeline does not fail fast on an invalid
policy. -/
theorem claim_C6_counterexample :
    ¬ ((0 : ℤ) ≤ 3 ∧ (3 : ℤ) ≤ 2) ∧
    midi_postprocessing [⟨0, 1, 60⟩] 48 72 1 3 true (fun _ => true) =
      some ([⟨0, 1, 60⟩], 1) :=
  ⟨by norm_num, eval_mono_invalid⟩

/-- C7 counterexample: with legato on, the first output note's end time
(2) equals no scaled input end time (the inputs end at 1 and 3), so the
output end times are not always `time_multiplier` times an original end
time. -/
theorem claim_C7_counterexample :
    midi_postprocessing [⟨0, 1, 60⟩, ⟨2, 3, 62⟩] 48 72 1 1 true (fun _ => true) =
      some ([⟨0, 2, 60⟩, ⟨2, 3, 62⟩], 2) ∧
    ¬ ∃ ev ∈ ([⟨0, 1, 60⟩, ⟨2, 3, 62⟩] : List Note), (2 : ℚ) = ev.endt * 1 := by
  constructor
  · exact eval_pair_legato
  · rintro ⟨ev, hev, h⟩
    rcases List.mem_cons.mp hev with rfl | hev
    · norm_num at h
    · rcases List.mem_cons.mp hev with rfl | hev
      · norm_num at h
      · exact absurd hev (List.not_mem_nil ev)

theorem claim_C1_witness :
    List.Chain' (fun a b => a.endt ≤ b.start) [(⟨0, 1, 60⟩ : Note), ⟨2, 3, 62⟩] ∧
    acceptStep false [⟨0, 1, 60⟩] ⟨1 / 2, 1, 50⟩ = [⟨0, 1, 60⟩] :=
  ⟨(claim_C1_no_overlap [⟨0, 1, 60⟩, ⟨2, 3, 62⟩] 48 72 1 1 false (fun _ => true)
      [⟨0, 1, 60⟩, ⟨2, 3, 62⟩] [⟨0, 1, 60⟩] 2 ⟨1 / 2, 1, 50⟩ ⟨0, 1, 60⟩).1
      eval_pair_nolegato,
   (claim_C1_no_overlap [⟨0, 1, 60⟩, ⟨2, 3, 62⟩] 48 72 1 1 false (fun _ => true)
      [⟨0, 1, 60⟩, ⟨2, 3, 62⟩] [⟨0, 1, 60⟩] 2 ⟨1 / 2, 1, 50⟩ ⟨0, 1, 60⟩).2
      rfl (by norm_num)⟩

theorem claim_C2_witness :
    ((48 : ℤ) ≤ (fit_to_pitch_range ⟨0, 1, 90⟩ 48 72).pitch ∧
      (fit_to_pitch_range ⟨0, 1, 90⟩ 48 72).pitch ≤ 72) ∧
    ∀ x ∈ [(⟨0, 1, 66⟩ : Note)], (48 : ℤ) ≤ x.pitch ∧ x.pitch ≤ 72 :=
  ⟨(claim_C2_range ⟨0, 1, 90⟩ [⟨0, 1, 90⟩] 48 72 1 1 true (fun _ => true)
      [⟨0, 1, 66⟩] 1).1 (by norm_num),
   (claim_C2_range ⟨0, 1, 90⟩ [⟨0, 1, 90⟩] 48 72 1 1 true (fun _ => true)
      [⟨0, 1, 66⟩] 1).2 (by norm_num) eval_single90⟩

theorem claim_C3_witness :
    List.Chain' (fun a b => a.endt = b.start) [(⟨0, 2, 60⟩ : Note), ⟨2, 3, 62⟩] ∧
    acceptStep true [⟨0, 1, 60⟩] ⟨2, 3, 62⟩ =
      List.dropLast [⟨0, 1, 60⟩] ++ [⟨0, 2, 60⟩, ⟨2, 3, 62⟩] :=
  ⟨(claim_C3_legato [⟨0, 1, 60⟩, ⟨2, 3, 62⟩] 48 72 1 1 (fun _ => true)
      [⟨0, 2, 60⟩, ⟨2, 3, 62⟩] [⟨0, 1, 60⟩] 2 ⟨2, 3, 62⟩ ⟨0, 1, 60⟩).1
      eval_pair_legato,
   (claim_C3_legato [⟨0, 1, 60⟩, ⟨2, 3, 62⟩] 48 72 1 1 (fun _ => true)
      [⟨0, 2, 60⟩, ⟨2, 3, 62⟩] [⟨0, 1, 60⟩] 2 ⟨2, 3, 62⟩ ⟨0, 1, 60⟩).2
      rfl (by norm_num)⟩

theorem claim_C4_witness :
    ((fit_to_pitch_range ⟨0, 1, 90⟩ 48 72).pitch =
        90 - 12 * ⌈((90 - 72 : ℤ) : ℚ) / 12⌉ ∧
      72 - 12 < (fit_to_pitch_range ⟨0, 1, 90⟩ 48 72).pitch ∧
      (fit_to_pitch_range ⟨0, 1, 90⟩ 48 72).pitch ≤ 72) ∧
    fit_to_pitch_range ⟨2, 3, 60⟩ 48 72 = ⟨2, 3, 60⟩ :=
  ⟨(claim_C4_fit_formula ⟨0, 1, 90⟩ 48 72).1 (by norm_num),
   (claim_C4_fit_formula ⟨2, 3, 60⟩ 48 72).2.2.1 (by norm_num) (by norm_num)⟩

theorem claim_C5_witness :
    (select_note_from_group [⟨0, 1, 60⟩, ⟨0, 1, 62⟩, ⟨0, 1, 64⟩, ⟨0, 1, 67⟩] 1 true =
        [(⟨0, 1, 60⟩ : Note), ⟨0, 1, 62⟩, ⟨0, 1, 64⟩, ⟨0, 1, 67⟩][2]? ∧
      select_note_from_group [⟨0, 1, 60⟩, ⟨0, 1, 62⟩, ⟨0, 1, 64⟩, ⟨0, 1, 67⟩] 1 false =
        [(⟨0, 1, 60⟩ : Note), ⟨0, 1, 62⟩, ⟨0, 1, 64⟩, ⟨0, 1, 67⟩][1]? ∧
      ∀ c', select_note_from_group
            [⟨0, 1, 60⟩, ⟨0, 1, 62⟩, ⟨0, 1, 64⟩, ⟨0, 1, 67⟩] 1 c' =
          [(⟨0, 1, 60⟩ : Note), ⟨0, 1, 62⟩, ⟨0, 1, 64⟩, ⟨0, 1, 67⟩][2]? ∨
        select_note_from_group
            [⟨0, 1, 60⟩, ⟨0, 1, 62⟩, ⟨0, 1, 64⟩, ⟨0, 1, 67⟩] 1 c' =
          [(⟨0, 1, 60⟩ : Note), ⟨0, 1, 62⟩, ⟨0, 1, 64⟩, ⟨0, 1, 67⟩][1]?) ∧
    ∀ c', select_note_from_group [⟨0, 1, 60⟩, ⟨0, 1, 64⟩, ⟨0, 1, 67⟩] 1 c' =
        [(⟨0, 1, 60⟩ : Note), ⟨0, 1, 64⟩, ⟨0, 1, 67⟩][1]? :=
  ⟨(claim_C5_selector [⟨0, 1, 60⟩, ⟨0, 1, 62⟩, ⟨0, 1, 64⟩, ⟨0, 1, 67⟩] true
      (by norm_num) (by norm_num [List.chain'_cons, List.chain'_singleton])).2.2.1
      (by norm_num),
   (claim_C5_selector [⟨0, 1, 60⟩, ⟨0, 1, 64⟩, ⟨0, 1, 67⟩] true
      (by norm_num) (by norm_num [List.chain'_cons, List.chain'_singleton])).2.2.2
      (by norm_num)⟩

theorem claim_C6_witness :
    midi_postprocessing [⟨0, 1, 60⟩, ⟨0, 1, 64⟩] 48 72 1 3 true (fun _ => true) =
      none :=
  (claim_C6_invalid_policy [⟨0, 1, 60⟩, ⟨0, 1, 64⟩] 48 72 1 3 true (fun _ => true)
      (by norm_num)).mpr
    ⟨[⟨0, 1, 60⟩, ⟨0, 1, 64⟩],
     by rw [eval_groups_pair]; exact List.mem_singleton.mpr rfl,
     by norm_num⟩

theorem claim_C7_witness :
    (∀ x ∈ [(⟨0, 2, 60⟩ : Note), ⟨2, 3, 62⟩],
      ∃ ev ∈ [(⟨0, 1, 60⟩ : Note), ⟨2, 3, 62⟩], x.start = ev.start * 1) ∧
    ((true : Bool) = false →
      ∀ x ∈ [(⟨0, 2, 60⟩ : Note), ⟨2, 3, 62⟩],
        ∃ ev ∈ [(⟨0, 1, 60⟩ : Note), ⟨2, 3, 62⟩],
          x.start = ev.start * 1 ∧ x.endt = ev.endt * 1) ∧
    ((true : Bool) = true →
      List.Chain' (fun a b => a.endt = b.start) [(⟨0, 2, 60⟩ : Note), ⟨2, 3, 62⟩] ∧
      ∀ x, ([(⟨0, 2, 60⟩ : Note), ⟨2, 3, 62⟩]).getLast? = some x →
        ∃ ev ∈ [(⟨0, 1, 60⟩ : Note), ⟨2, 3, 62⟩], x.endt = ev.endt * 1) :=
  claim_C7_time_scaling [⟨0, 1, 60⟩, ⟨2, 3, 62⟩] 48 72 1 1 true (fun _ => true)
    [⟨0, 2, 60⟩, ⟨2, 3, 62⟩] 2 (by norm_num) eval_pair_legato

theorem claim_C8_witness :
    0 = ([] : List Note).length ∧
    ([] : List Note).length ≤
      (group_by_start_time (sortNotes (([] : List Note).map (scaleNote 1)))).length ∧
    (group_by_start_time (sortNotes (([] : List Note).map (scaleNote 1)))).length ≤
      ([] : List Note).length ∧
    (([] : List Note) = [] → 0 = 0) :=
  claim_C8_count [] 48 72 1 1 true (fun _ => true) [] 0 eval_empty

theorem claim_C9_witness :
    ((fit_to_pitch_range ⟨0, 1, 90⟩ 48 72).start = 0 ∧
      (fit_to_pitch_range ⟨0, 1, 90⟩ 48 72).endt = 1) ∧
    (acceptStep true [⟨0, 1, 60⟩] ⟨2, 3, 62⟩ = [(⟨0, 1, 60⟩ : Note)] ∨
      acceptStep true [⟨0, 1, 60⟩] ⟨2, 3, 62⟩ =
        [(⟨0, 1, 60⟩ : Note)] ++ [⟨2, 3, 62⟩] ∨
      ∃ prev, [(⟨0, 1, 60⟩ : Note)].getLast? = some prev ∧
        acceptStep true [⟨0, 1, 60⟩] ⟨2, 3, 62⟩ =
          [(⟨0, 1, 60⟩ : Note)].dropLast ++
            [⟨prev.start, 2, prev.pitch⟩, ⟨2, 3, 62⟩]) ∧
    (∀ x ∈ [(⟨0, 2, 60⟩ : Note), ⟨2, 3, 62⟩],
      ∃ ev ∈ [(⟨0, 1, 60⟩ : Note), ⟨2, 3, 62⟩], x.start = ev.start * 1) :=
  ⟨(claim_C9_frame ⟨0, 1, 90⟩ ⟨2, 3, 62⟩ 48 72 true [⟨0, 1, 60⟩]
      [⟨0, 1, 60⟩, ⟨2, 3, 62⟩] 1 1 (fun _ => true) [⟨0, 2, 60⟩, ⟨2, 3, 62⟩] 2).1,
   (claim_C9_frame ⟨0, 1, 90⟩ ⟨2, 3, 62⟩ 48 72 true [⟨0, 1, 60⟩]
      [⟨0, 1, 60⟩, ⟨2, 3, 62⟩] 1 1 (fun _ => true) [⟨0, 2, 60⟩, ⟨2, 3, 62⟩] 2).2.1,
   (claim_C9_frame ⟨0, 1, 90⟩ ⟨2, 3, 62⟩ 48 72 true [⟨0, 1, 60⟩]
      [⟨0, 1, 60⟩, ⟨2, 3, 62⟩] 1 1 (fun _ => true) [⟨0, 2, 60⟩, ⟨2, 3, 62⟩] 2).2.2
     eval_pair_legato⟩

theorem claim_C10_witness :
    ((0 ≤ pyInt (([(⟨0, 1, 60⟩ : Note), ⟨0, 1, 64⟩].length : ℚ) / 2) ∧
        pyInt (([(⟨0, 1, 60⟩ : Note), ⟨0, 1, 64⟩].length : ℚ) / 2) ≤
          ([(⟨0, 1, 60⟩ : Note), ⟨0, 1, 64⟩].length : ℤ) - 1) ∧
      (0 ≤ pyInt (([(⟨0, 1, 60⟩ : Note), ⟨0, 1, 64⟩].length : ℚ) / 2 - 1) ∧
        pyInt (([(⟨0, 1, 60⟩ : Note), ⟨0, 1, 64⟩].length : ℚ) / 2 - 1) ≤
          ([(⟨0, 1, 60⟩ : Note), ⟨0, 1, 64⟩].length : ℤ) - 1) ∧
      (0 ≤ pyInt (([(⟨0, 1, 60⟩ : Note), ⟨0, 1, 64⟩].length : ℚ) / 2 - 1 / 2) ∧
        pyInt (([(⟨0, 1, 60⟩ : Note), ⟨0, 1, 64⟩].length : ℚ) / 2 - 1 / 2) ≤
          ([(⟨0, 1, 60⟩ : Note), ⟨0, 1, 64⟩].length : ℤ) - 1) ∧
      (∃ k : ℕ, k < [(⟨0, 1, 60⟩ : Note), ⟨0, 1, 64⟩].length ∧
        select_note_from_group [⟨0, 1, 60⟩, ⟨0, 1, 64⟩] 1 true =
          [(⟨0, 1, 60⟩ : Note), ⟨0, 1, 64⟩][k]? ∧
        ∃ x ∈ [(⟨0, 1, 60⟩ : Note), ⟨0, 1, 64⟩],
          select_note_from_group [⟨0, 1, 60⟩, ⟨0, 1, 64⟩] 1 true = some x)) ∧
    (∃ k : ℕ, k < [(⟨0, 1, 60⟩ : Note), ⟨0, 1, 64⟩].length ∧
      select_note_from_group [⟨0, 1, 60⟩, ⟨0, 1, 64⟩] 1 false =
        [(⟨0, 1, 60⟩ : Note), ⟨0, 1, 64⟩][k]? ∧
      ∃ x ∈ [(⟨0, 1, 60⟩ : Note), ⟨0, 1, 64⟩],
        select_note_from_group [⟨0, 1, 60⟩, ⟨0, 1, 64⟩] 1 false = some x) :=
  ⟨claim_C10_selector_safe [⟨0, 1, 60⟩, ⟨0, 1, 64⟩] 1 true (by norm_num)
      (by norm_num) (by norm_num),
   (claim_C10_selector_safe [⟨0, 1, 60⟩, ⟨0, 1, 64⟩] 1 false (by norm_num)
      (by norm_num) (by norm_num)).2.2.2⟩

end MidiPost
